import Mathlib

/-!
Verification of the fmf test-discovery plugin (`tmt/steps/discover/fmf.py`).

The development shallowly embeds the plugin's `wake` and `go` methods.  Pure
string/path manipulation (`os.path.join`, `os.path.dirname`, `os.path.relpath`,
`os.path.normpath`, `str.split`, `str.strip`, `re.escape`) is translated from
the Python standard library's posixpath semantics; the plugin's control flow is
translated statement by statement, with external processes (git), the
filesystem and the metadata-tree query represented by an explicit environment
and a trace of performed effects.
-/

namespace TmtFmf

/-! ## Path and string helpers (posixpath semantics, over explicit char lists) -/

/-- Python `str.lstrip('/')`: drop every leading slash. -/
def lstripSlash (s : String) : String :=
  ⟨s.data.dropWhile (fun c => c = '/')⟩

/-- Python `str.strip('\n')`: drop newlines from both ends. -/
def stripNL (s : String) : String :=
  ⟨((s.data.dropWhile (fun c => c = '\n')).reverse.dropWhile (fun c => c = '\n')).reverse⟩

/-- True when the list ends with `'/'` (posixpath `endswith(sep)`). -/
def endsWithSlash (a : List Char) : Bool :=
  decide (a.getLast? = some '/')

/-- `posixpath.join` restricted to two components, on char lists:
if `b` starts with the separator it replaces `a`; otherwise a separator is
inserted unless `a` is empty or already ends with one. -/
def pjoinL (a b : List Char) : List Char :=
  if b.head? = some '/' then b
  else if a = [] ∨ endsWithSlash a then a ++ b
  else a ++ '/' :: b

/-- `posixpath.join` on strings (two components, as used by the plugin). -/
def pjoin (a b : String) : String :=
  ⟨pjoinL a.data b.data⟩

/-- Python `str.split(sep)` for a one-character separator: splits on every
occurrence, keeping empty pieces (so a trailing separator yields a final
empty piece, and splitting the empty string yields one empty piece). -/
def splitSep (sep : Char) : List Char → List (List Char)
  | [] => [[]]
  | c :: cs =>
    if c = sep then [] :: splitSep sep cs
    else
      match splitSep sep cs with
      | [] => [[c]]
      | l :: ls => (c :: l) :: ls

/-- `posixpath.dirname` on a char list: everything up to the last slash, with
trailing slashes then stripped unless the head is all slashes. -/
def dirnameL (cs : List Char) : List Char :=
  match cs.reverse.dropWhile (fun c => c ≠ '/') with
  | [] => []
  | rest =>
    if rest.reverse.all (fun c => c = '/') then rest.reverse
    else (rest.dropWhile (fun c => c = '/')).reverse

/-- `posixpath.dirname` on strings. -/
def dirname (s : String) : String :=
  ⟨dirnameL s.data⟩

/-- Join path components with single slashes (used by `relpath`; every
component is nonempty there, matching `posixpath.join(*rel_list)`). -/
def joinSlash : List (List Char) → List Char
  | [] => []
  | [x] => x
  | x :: xs => x ++ '/' :: joinSlash xs

/-- Length of the longest common prefix of two component lists
(`os.path.commonprefix` on two lists). -/
def commonLen : List (List Char) → List (List Char) → Nat
  | a :: as', b :: bs' => if a = b then commonLen as' bs' + 1 else 0
  | _, _ => 0

/-- `posixpath.relpath path start` for already-absolute, normalized inputs
(the plugin only ever passes the fmf root and the git toplevel, both absolute,
so `abspath` is the identity and is omitted): split both into nonempty
components, walk past the common prefix, go up with `..` and down the rest;
the empty relative path is `"."`. -/
def relpath (path start : String) : String :=
  let pl := (splitSep '/' path.data).filter (fun c => c ≠ [])
  let sl := (splitSep '/' start.data).filter (fun c => c ≠ [])
  let i := commonLen sl pl
  let rel := List.replicate (sl.length - i) ['.', '.'] ++ pl.drop i
  if rel = [] then "." else ⟨joinSlash rel⟩

/-- `posixpath.normpath`: collapse empty and `.` components, resolve `..`
against preceding components, keep the leading-slash count (2 only for a
double slash). This is the "normalize" the spec's PathRewriter contract
speaks of; the plugin itself never calls it. -/
def normpath (p : String) : String :=
  if p.data = [] then "."
  else
    let cs := p.data
    let initialSlashes : Nat :=
      if cs.take 1 = ['/'] then
        (if cs.take 2 = ['/', '/'] ∧ cs.take 3 ≠ ['/', '/', '/'] then 2 else 1)
      else 0
    let newComps := (splitSep '/' cs).foldl
      (fun acc comp =>
        if comp = [] ∨ comp = ['.'] then acc
        else if comp ≠ ['.', '.'] ∨ (initialSlashes = 0 ∧ acc = []) ∨
                acc.getLast? = some ['.', '.'] then acc ++ [comp]
        else acc.dropLast)
      []
    let out := List.replicate initialSlashes '/' ++ joinSlash newComps
    if out = [] then "." else ⟨out⟩

/-! ## `re.escape` and a model of the literal fragment of regular expressions -/

/-- The characters Python's `re.escape` prefixes with a backslash. -/
def reSpecial : List Char :=
  ['(', ')', '[', ']', '{', '}', '?', '*', '+', '-', '|', '^', '$', '\\',
   '.', '&', '~', '#', ' ', '\t', '\n', '\r', '\x0b', '\x0c']

/-- `re.escape` on a char list. -/
def reEscapeL : List Char → List Char
  | [] => []
  | c :: cs =>
    if c ∈ reSpecial then '\\' :: c :: reEscapeL cs
    else c :: reEscapeL cs

/-- `re.escape` on strings. -/
def reEscape (s : String) : String :=
  ⟨reEscapeL s.data⟩

/-- The characters that carry meaning in a Python regular expression. -/
def regexMeta : List Char :=
  ['.', '^', '$', '*', '+', '?', '{', '}', '[', ']', '\\', '|', '(', ')']

/-- Lex a regex fragment that denotes a plain character sequence: a backslash
escapes the next character, an unescaped metacharacter (or a dangling
backslash) is outside the modelled fragment and is refused. -/
def lexLits : List Char → Option (List Char)
  | [] => some []
  | c :: cs =>
    if c = '\\' then
      match cs with
      | [] => none
      | d :: ds => (lexLits ds).map (fun l => d :: l)
    else if c ∈ regexMeta then none
    else (lexLits cs).map (fun l => c :: l)

/-- Strip an optional leading `^` anchor, reporting whether it was there. -/
def splitCaret : List Char → Bool × List Char
  | '^' :: rest => (true, rest)
  | cs => (false, cs)

/-- Parse the rest of a pattern after the `^` handling: a trailing `$` is an
end anchor when what precedes it lexes as a literal body (otherwise that `$`
was escaped and belongs to the body). -/
def parseTail (aS : Bool) (r1 : List Char) : Option (Bool × List Char × Bool) :=
  match r1.getLast? with
  | some '$' =>
    match lexLits r1.dropLast with
    | some lits => some (aS, lits, true)
    | none => (lexLits r1).map (fun lits => (aS, lits, false))
  | _ => (lexLits r1).map (fun lits => (aS, lits, false))

/-- Parse a regex of the literal fragment into (start-anchored?, literal
characters, end-anchored?): an optional leading `^`, an optional trailing
unescaped `$`, and a literal body. Patterns outside the fragment give `none`. -/
def parseRegex (p : String) : Option (Bool × List Char × Bool) :=
  parseTail (splitCaret p.data).1 (splitCaret p.data).2

/-- `re.search` semantics for the literal fragment: the literal body matches
some contiguous part of the subject, constrained to start (end) of the subject
by the anchors. -/
def litSearch (aS : Bool) (lits : List Char) (aE : Bool) (s : List Char) : Prop :=
  ∃ pre post, s = pre ++ lits ++ post ∧ (aS = true → pre = []) ∧ (aE = true → post = [])

/-! ## The modified-set computation (`DiscoverFmf.go`, lines 195-202) -/

/-- Insert keeping the first occurrence (one step of duplicate collapse). -/
def insertUniq (l : List String) (s : String) : List String :=
  if s ∈ l then l else l ++ [s]

/-- Collapse duplicates, keeping first occurrences (the Python `set(...)`
collapses duplicates; a list with a deterministic order stands for it here,
all claims about it being membership claims). -/
def dedupFirst (l : List String) : List String :=
  l.foldl insertUniq []

/-- The pattern built for one changed directory: `f"^/{re.escape(name)}$"`. -/
def patOf (d : List Char) : String :=
  ⟨'^' :: '/' :: (reEscapeL d ++ ['$'])⟩

/-- The modified set from the list of changed-file lines: take each line's
directory component, drop empty ones, anchor the escaped name, collapse
duplicates. Translates
`set(f"^/{re.escape(name)}$" for name in map(os.path.dirname, output.split('\n')) if name)`. -/
def modifiedOfFiles (files : List (List Char)) : List String :=
  dedupFirst (((files.map dirnameL).filter (fun d => d ≠ [])).map patOf)

/-- The modified set from the raw `git log --name-only` output. -/
def modifiedList (output : String) : List String :=
  modifiedOfFiles (splitSep '\n' output.data)

/-- The modified set from a list of changed file paths given as strings. -/
def modifiedOfFilesS (files : List String) : List String :=
  modifiedOfFiles (files.map String.data)

/-! ## Configuration data and `DiscoverFmf.wake` (lines 100-119) -/

/-- A value of the step-data dictionary for the `test`/`filter` keys: either a
single scalar string or a list of strings. -/
inductive Value
  | str (s : String)
  | vlist (l : List String)
deriving DecidableEq

/-- The step-data dictionary as `wake` sees it: each key either absent or
holding a value (the `test` and `filter` keys may hold a scalar or a list). -/
structure RawData where
  repository : Option String := none
  revision : Option String := none
  url : Option String := none
  ref : Option String := none
  reference_url : Option String := none
  reference_ref : Option String := none
  path : Option String := none
  test : Option Value := none
  filter : Option Value := none
  only_modified : Option Bool := none
deriving DecidableEq

/-- The command-line options: `--test` and `--filter` are repeatable (click
`multiple=True` yields a tuple, here a list, empty when not given),
`--only-modified` is a flag. -/
structure CmdLine where
  url : Option String := none
  ref : Option String := none
  reference_url : Option String := none
  reference_ref : Option String := none
  path : Option String := none
  test : List String := []
  filter : List String := []
  only_modified : Bool := false
deriving DecidableEq

/-- Python truthiness of an optional string (`if value:`): present and
nonempty. -/
def truthy : Option String → Bool
  | none => false
  | some s => !s.data.isEmpty

/-- Wrap a scalar into a one-element list; leave lists (and absence)
unchanged (`if key in self.data and not isinstance(self.data[key], list)`). -/
def wrapValue : Option Value → Option Value
  | some (Value.str s) => some (Value.vlist [s])
  | v => v

/-- Apply a command-line string option over the data value: the option wins
only when truthy (`value = self.opt(option); if value: self.data[option] = value`). -/
def strOver (new old : Option String) : Option String :=
  if truthy new then new else old

/-- `DiscoverFmf.wake`: map the backward-compatible `repository`/`revision`
keys onto `url`/`ref`, normalize `test` and `filter` scalars to one-element
lists, then overwrite each key with its command-line value when that value is
truthy (a repeatable option is truthy when nonempty, the flag when set). -/
def wake (d : RawData) (cl : CmdLine) : RawData :=
  let d := match d.repository with
    | some r => { d with url := some r, repository := none }
    | none => d
  let d := match d.revision with
    | some r => { d with ref := some r, revision := none }
    | none => d
  let d := { d with filter := wrapValue d.filter, test := wrapValue d.test }
  { d with
    url := strOver cl.url d.url
    ref := strOver cl.ref d.ref
    reference_url := strOver cl.reference_url d.reference_url
    reference_ref := strOver cl.reference_ref d.reference_ref
    path := strOver cl.path d.path
    test := if cl.test = [] then d.test else some (Value.vlist cl.test)
    filter := if cl.filter = [] then d.filter else some (Value.vlist cl.filter)
    only_modified := if cl.only_modified then some true else d.only_modified }

/-! ## The discovery run: data model for `DiscoverFmf.go` (lines 121-219) -/

/-- A test case as returned by the metadata tree. -/
structure Test where
  name : String
  path : String
  require : List String
  recommend : List String
deriving DecidableEq

/-- The configuration `go` reads through `self.get` (after `wake`, `test` and
`filter` are lists; absent keys read as their defaults). -/
structure Config where
  url : Option String := none
  ref : Option String := none
  reference_url : Option String := none
  reference_ref : Option String := none
  path : Option String := none
  test : List String := []
  filter : List String := []
  only_modified : Bool := false
deriving DecidableEq

/-- `DiscoverFmf.default` for `ref`: defaults to `master` when `url` is
truthy; `self.get('ref')` returns the data value when present. -/
def getRef (cfg : Config) : Option String :=
  match cfg.ref with
  | some r => some r
  | none => if truthy cfg.url then some "master" else none

/-- `DiscoverFmf.default` for `reference_ref`: defaults to `master`. -/
def getReferenceRef (cfg : Config) : String :=
  match cfg.reference_ref with
  | some r => r
  | none => "master"

/-- One performed external action of the discovery run, in order. Commands
the plugin issues through `self.run` appear only when actually executed: the
external `run` helper skips every command in dry-run mode except those called
with `dry=True` (only the `git rev-parse` toplevel lookup), and
`shutil.copytree` is explicitly guarded by `not self.opt('dry')`. -/
inductive Effect
  | gitClone (url dst : String)
  | gitRevParse (cwd : String)
  | copyTree (src dst : String)
  | gitCheckout (rev cwd : String)
  | gitRemoteAdd (rname rurl cwd : String)
  | gitFetch (rname cwd : String)
  | gitLog (range cwd : String)
  | treeQuery (treePath : String) (filters names : List String)
  | pathRewrite (testName oldPath newPath : String)
  | depExpand (testName : String) (require recommend : List String)
deriving DecidableEq

/-- The discovery errors `go` can raise (`tmt.utils.DiscoverError`). -/
inductive DiscErr
  | pathNotDirectory (path : String)
  | metadataTreeNotFound (path : String)
deriving DecidableEq

/-- The external world `go` interacts with: the run's working directory, the
plan's tree root, the filesystem's directory predicate, the outcome of the
`git rev-parse --show-toplevel` lookup per working directory (`none` is a
`RunError`), the output of the `git log --name-only` diff, the dry-run flag,
the metadata tree's tests with the query engine's matching predicates, and
the beakerlib dependency resolver (its third return value is discarded by the
plugin and omitted here). -/
structure Env where
  workdir : String
  planTreeRoot : String
  isDir : String → Bool
  revParse : String → Option String
  gitLogOutput : String
  dry : Bool
  allTests : List Test
  matchesName : String → Test → Bool
  matchesFilter : String → Test → Bool
  dependencies : List String → List String → List String × List String

/-- The `tests` subdirectory of the working directory
(`os.path.join(self.workdir, 'tests')`). -/
def testdirOf (env : Env) : String :=
  pjoin env.workdir "tests"

/-- Modelled from the spec: the metadata-tree query engine (`tmt.Tree.tests`)
is code of this repository that is not under `src/`; per the spec's
TestSelector contract, a test is included iff (no names were given, or it
matches at least one name pattern) and (it matches every filter expression),
in the tree's own stable order (here: the order of `allTests`). -/
def select (allTests : List Test) (matchesName matchesFilter : String → Test → Bool)
    (filters names : List String) : List Test :=
  allTests.filter (fun t =>
    (names.isEmpty || names.any (fun n => matchesName n t)) &&
    filters.all (fun f => matchesFilter f t))

/-! ## `DiscoverFmf.go` -/

/-- The acquisition step (lines 125-154): with a truthy `url`, clone into the
`tests` subdirectory and keep the configured `path` untouched; otherwise fail
when a truthy `path` is not a directory, fall back from the git toplevel to
the fmf root when `git rev-parse` fails, copy the resolved root (skipped in
dry-run), and set the path to the fmf root relative to the copied root.
Returns the resulting optional `path` and the performed effects. -/
def acquire (env : Env) (cfg : Config) : Except DiscErr (Option String × List Effect) :=
  if truthy cfg.url then
    .ok (cfg.path, if env.dry then [] else [.gitClone (cfg.url.getD "") (testdirOf env)])
  else if truthy cfg.path && !env.isDir (cfg.path.getD "") then
    .error (.pathNotDirectory (cfg.path.getD ""))
  else
    let fmfRoot := if truthy cfg.path then cfg.path.getD "" else env.planTreeRoot
    let gitRoot :=
      match env.revParse fmfRoot with
      | some out => stripNL out
      | none => fmfRoot
    .ok (some (relpath fmfRoot gitRoot),
      .gitRevParse fmfRoot :: (if env.dry then [] else [.copyTree gitRoot (testdirOf env)]))

/-- The checkout step (lines 156-161): `git checkout -f` of the requested ref
when truthy (skipped by the external `run` in dry-run mode). -/
def checkoutTrace (env : Env) (cfg : Config) : List Effect :=
  if truthy (getRef cfg) && !env.dry then
    [.gitCheckout ((getRef cfg).getD "") (testdirOf env)]
  else []

/-- The path adjustment (lines 163-167): `None` and `"."` collapse to the
empty path. -/
def adjustPath : Option String → String
  | none => ""
  | some p => if p = "." then "" else p

/-- The reference-remote step (lines 184-191): when `reference_url` is
truthy, add it as the `reference` remote and fetch it (both skipped by the
external `run` in dry-run mode). -/
def refUrlTrace (env : Env) (cfg : Config) : List Effect :=
  if truthy cfg.reference_url && !env.dry then
    [.gitRemoteAdd "reference" (cfg.reference_url.getD "") (testdirOf env),
     .gitFetch "reference" (testdirOf env)]
  else []

/-- The per-test rewrite of line 215:
`os.path.join(prefix_path, test.path.lstrip('/'))`. -/
def rewritePath (pfx p : String) : String :=
  pjoin pfx (lstripSlash p)

/-- One iteration of the final loop (lines 213-219): rewrite the test's path,
then expand its dependencies through the external resolver when `require` or
`recommend` is nonempty, recording the corresponding effects in order. -/
def finalizeStep (env : Env) (pfx : String) (acc : List Test × List Effect) (t : Test) :
    List Test × List Effect :=
  let newPath := rewritePath pfx t.path
  let tr := acc.2 ++ [Effect.pathRewrite t.name t.path newPath]
  if !t.require.isEmpty || !t.recommend.isEmpty then
    (acc.1 ++ [{ t with path := newPath,
                        require := (env.dependencies t.require t.recommend).1,
                        recommend := (env.dependencies t.require t.recommend).2 }],
     tr ++ [Effect.depExpand t.name t.require t.recommend])
  else
    (acc.1 ++ [{ t with path := newPath }], tr)

/-- The final loop over the selected tests. -/
def finalize (env : Env) (pfx : String) (ts : List Test) : List Test × List Effect :=
  ts.foldl (finalizeStep env pfx) ([], [])

/-- The outcome of one `go` run: the result (the discovered tests, or the
raised error), the performed effects in order, and — for the stages that were
reached — the adjusted `path`, the computed `prefix_path`, the name list
passed to the tree query, and the tests the query returned. -/
structure GoResult where
  result : Except DiscErr (List Test)
  trace : List Effect
  adjustedPath : Option String
  prefixPath : Option String
  queryNames : Option (List String)
  selected : Option (List Test)

/-- `DiscoverFmf.go`, statement by statement: acquire the source tree, check
out the ref, adjust the path, fail when the metadata tree path is not a
directory (outside dry-run), compute `prefix_path`, fetch the reference
remote, compute the modified set when `only_modified` (the diff output is
empty in dry-run, where the log command is skipped), return the empty list in
dry-run before any tree query, otherwise query the tree and run the final
rewrite/dependency loop. -/
def go (env : Env) (cfg : Config) : GoResult :=
  match acquire env cfg with
  | .error e => ⟨.error e, [], none, none, none, none⟩
  | .ok (path0, tr0) =>
    let tr1 := tr0 ++ checkoutTrace env cfg
    let path1 := adjustPath path0
    let treePath := pjoin (testdirOf env) (lstripSlash path1)
    if !env.isDir treePath && !env.dry then
      ⟨.error (.metadataTreeNotFound path1), tr1, some path1, none, none, none⟩
    else
      let prefixPath := pjoin "/tests" (lstripSlash path1)
      let tr2 := tr1 ++ refUrlTrace env cfg
      let output := if env.dry then "" else env.gitLogOutput
      let tr3 := tr2 ++ (if cfg.only_modified && !env.dry then
          [.gitLog (getReferenceRef cfg ++ "..HEAD") (testdirOf env)] else [])
      let names := if cfg.only_modified then cfg.test ++ modifiedList output else cfg.test
      if env.dry then
        ⟨.ok [], tr3, some path1, some prefixPath, none, none⟩
      else
        let sel := select env.allTests env.matchesName env.matchesFilter cfg.filter names
        let fin := finalize env prefixPath sel
        ⟨.ok fin.1, tr3 ++ .treeQuery treePath cfg.filter names :: fin.2,
         some path1, some prefixPath, some names, some sel⟩

/-- A mutating effect (filesystem or version-control state): used to state
"fails before any mutation". -/
def isMutation : Effect → Bool
  | .gitClone _ _ => true
  | .copyTree _ _ => true
  | .gitCheckout _ _ => true
  | .gitRemoteAdd _ _ _ => true
  | .gitFetch _ _ => true
  | _ => false

/-- Recognizes a metadata-tree query effect. -/
def isTreeQueryE : Effect → Bool
  | .treeQuery _ _ _ => true
  | _ => false

/-- Recognizes a recursive-copy effect. -/
def isCopyE : Effect → Bool
  | .copyTree _ _ => true
  | _ => false

/-- The test one selected test becomes after the final loop: its path
rewritten once, its dependency lists replaced by the resolver's answer when
either was nonempty. -/
def finalTest (env : Env) (pfx : String) (t : Test) : Test :=
  if !t.require.isEmpty || !t.recommend.isEmpty then
    { t with path := rewritePath pfx t.path,
             require := (env.dependencies t.require t.recommend).1,
             recommend := (env.dependencies t.require t.recommend).2 }
  else
    { t with path := rewritePath pfx t.path }

/-- The effects one selected test contributes to the trace: its path rewrite
first, then — when either dependency list was nonempty — the dependency
expansion. -/
def stepTrace (pfx : String) (t : Test) : List Effect :=
  Effect.pathRewrite t.name t.path (rewritePath pfx t.path) ::
    (if !t.require.isEmpty || !t.recommend.isEmpty then
      [Effect.depExpand t.name t.require t.recommend]
    else [])

/-- The whole final loop's trace, test by test in selection order. -/
def traceOf (pfx : String) : List Test → List Effect
  | [] => []
  | t :: ts => stepTrace pfx t ++ traceOf pfx ts

/-- The spec's words for the PathRewriter contract, stated as a definition for
comparison with the source's `rewritePath`:
`path' = normalize(pathPrefix + "/" + stripLeadingSlash(path))`. -/
def rewritePathSpec (pfx p : String) : String :=
  normpath (pfx ++ "/" ++ lstripSlash p)

/-! ## Concrete environments and configurations for witnesses and
counterexamples -/

/-- A baseline environment: nothing on disk is a directory, the fmf root is
not under version control, no tests in the tree. -/
def envBase : Env where
  workdir := "/w"
  planTreeRoot := "/r"
  isDir := fun _ => false
  revParse := fun _ => none
  gitLogOutput := ""
  dry := false
  allTests := []
  matchesName := fun _ _ => false
  matchesFilter := fun _ _ => true
  dependencies := fun r c => (r, c)

/-- C2's counterexample scenario: a remote url together with a `path` that is
not a directory. -/
def cfgUrlBadPath : Config := { url := some "http://u", path := some "/bad" }

/-- An environment where every path is a directory and the plan's tree root
`/r` is itself a git toplevel (`git rev-parse` prints it with a newline). -/
def envGitRoot : Env :=
  { envBase with
    isDir := fun _ => true
    revParse := fun s => if s = "/r" then some "/r\n" else none }

/-- The empty configuration: no url, no path, no explicit names or filters. -/
def cfgEmpty : Config := {}

/-- An environment where every path is a directory but nothing is under
version control. -/
def envNoVcs : Env := { envBase with isDir := fun _ => true }

/-- A dry-run environment over `envBase` (nothing is a directory). -/
def envDryBad : Env := { envBase with dry := true }

/-- A configuration whose `path` does not exist (no url). -/
def cfgBadPath : Config := { path := some "/bad" }

/-- A dry-run environment over `envGitRoot`. -/
def envDryGood : Env := { envGitRoot with dry := true }

/-- A test under the top-level directory `a` of the tree. -/
def testUnderA : Test := { name := "/a/t1", path := "/a/t1", require := [], recommend := [] }

/-- An environment for the selection scenarios: one test under directory `a`,
a diff that touched `a/x`, and a name matcher under which only the anchored
pattern for directory `a` matches that test. -/
def envSelect : Env :=
  { envGitRoot with
    allTests := [testUnderA]
    gitLogOutput := "a/x\n"
    matchesName := fun n t => n = "^/a$" && t.name = "/a/t1" }

/-- Discovery from a url with an explicit test name and `only_modified`. -/
def cfgOnlyModified : Config := { url := some "u", test := ["foo"], only_modified := true }

/-- Discovery from a url with a reference url and `only_modified` off. -/
def cfgRefUrl : Config := { url := some "u", reference_url := some "http://ref" }

/-- Step data holding a scalar `test` and a list `filter` (for the wake
witness). -/
def rawScalar : RawData := { test := some (Value.str "/tests/one"), filter := some (Value.vlist ["tier: 1"]) }

/-- An empty command line (for the wake witness). -/
def clEmpty : CmdLine := {}

/-! ## Theorems -/


theorem mem_insertUniq (l : List String) (a s : String) :
    s ∈ insertUniq l a ↔ s ∈ l ∨ s = a := by
  by_cases h : a ∈ l <;> simp only [insertUniq, h, if_true, if_false, List.mem_append,
    List.mem_singleton]
  constructor
  · exact Or.inl
  · rintro (hs | rfl)
    · exact hs
    · exact h

theorem mem_foldl_insertUniq (l acc : List String) (s : String) :
    s ∈ l.foldl insertUniq acc ↔ s ∈ acc ∨ s ∈ l := by
  induction l generalizing acc with
  | nil => simp
  | cons a l ih =>
    rw [List.foldl_cons, ih, mem_insertUniq]
    simp only [List.mem_cons]
    tauto

theorem mem_dedupFirst (l : List String) (s : String) :
    s ∈ dedupFirst l ↔ s ∈ l := by
  rw [dedupFirst, mem_foldl_insertUniq]
  simp

theorem nodup_insertUniq (l : List String) (a : String) (h : l.Nodup) :
    (insertUniq l a).Nodup := by
  unfold insertUniq
  split
  · exact h
  · next hna => simp [List.nodup_append, h, hna]

theorem nodup_foldl_insertUniq (l acc : List String) (h : acc.Nodup) :
    (l.foldl insertUniq acc).Nodup := by
  induction l generalizing acc with
  | nil => exact h
  | cons a l ih => exact ih _ (nodup_insertUniq _ _ h)

theorem nodup_dedupFirst (l : List String) : (dedupFirst l).Nodup :=
  nodup_foldl_insertUniq l [] List.nodup_nil

theorem commonLen_self (l : List (List Char)) : commonLen l l = l.length := by
  induction l with
  | nil => rfl
  | cons a l ih => simp [commonLen, ih]

theorem relpath_self (p : String) : relpath p p = "." := by
  unfold relpath
  simp [commonLen_self, List.drop_length]

theorem backslash_mem_reSpecial : '\\' ∈ reSpecial := by decide

theorem regexMeta_subset_reSpecial : ∀ c ∈ regexMeta, c ∈ reSpecial := by decide

theorem lexLits_reEscapeL (cs : List Char) : lexLits (reEscapeL cs) = some cs := by
  induction cs with
  | nil => rfl
  | cons c cs ih =>
    by_cases h : c ∈ reSpecial
    · simp [reEscapeL, h, lexLits, ih]
    · have hb : ¬ c = '\\' := fun e => h (e ▸ backslash_mem_reSpecial)
      have hm : c ∉ regexMeta := fun e => h (regexMeta_subset_reSpecial c e)
      rw [reEscapeL]
      rw [if_neg h]
      rw [lexLits.eq_def]
      simp only [hb, if_false, reduceIte]
      rw [if_neg hm]
      simp [ih]

theorem slash_not_mem_regexMeta : '/' ∉ regexMeta := by decide

theorem lexLits_slash_reEscapeL (d : List Char) :
    lexLits ('/' :: reEscapeL d) = some ('/' :: d) := by
  rw [lexLits.eq_def]
  simp [lexLits_reEscapeL, slash_not_mem_regexMeta]

theorem parseRegex_patOf (d : List Char) :
    parseRegex (patOf d) = some (true, '/' :: d, true) := by
  have hdata : (patOf d).data = '^' :: (('/' :: reEscapeL d) ++ ['$']) := rfl
  have hsplit : splitCaret (patOf d).data = (true, ('/' :: reEscapeL d) ++ ['$']) := by
    rw [hdata]
    rfl
  rw [parseRegex, hsplit]
  show parseTail true (('/' :: reEscapeL d) ++ ['$']) = _
  unfold parseTail
  rw [List.getLast?_concat, List.dropLast_concat, lexLits_slash_reEscapeL]
  rfl

theorem litSearch_anchored (lits s : List Char) :
    litSearch true lits true s ↔ s = lits := by
  constructor
  · rintro ⟨pre, post, hs, hpre, hpost⟩
    rw [hpre rfl, hpost rfl] at hs
    simpa using hs
  · rintro rfl
    exact ⟨[], [], by simp, fun _ => rfl, fun _ => rfl⟩

theorem pjoinL_nil (b : List Char) : pjoinL [] b = b := by
  unfold pjoinL
  split
  · rfl
  · rw [if_pos (Or.inl rfl)]
    rfl

theorem rewritePath_empty (p : String) : rewritePath "" p = lstripSlash p := by
  show pjoin "" (lstripSlash p) = lstripSlash p
  unfold pjoin
  rw [show ("" : String).data = [] from rfl, pjoinL_nil]

theorem mem_modifiedList (output : String) (p : String) :
    p ∈ modifiedList output ↔
      ∃ f, f ∈ splitSep '\n' output.data ∧ dirnameL f ≠ [] ∧ p = patOf (dirnameL f) := by
  rw [modifiedList, modifiedOfFiles, mem_dedupFirst]
  simp only [List.mem_map, List.mem_filter, decide_eq_true_eq]
  constructor
  · rintro ⟨d, ⟨⟨f, hf, rfl⟩, hne⟩, rfl⟩
    exact ⟨f, hf, hne, rfl⟩
  · rintro ⟨f, hf, hne, rfl⟩
    exact ⟨dirnameL f, ⟨⟨f, hf, rfl⟩, hne⟩, rfl⟩

theorem finalizeStep_eq (env : Env) (pfx : String) (acc1 : List Test) (acc2 : List Effect)
    (t : Test) :
    finalizeStep env pfx (acc1, acc2) t =
      (acc1 ++ [finalTest env pfx t], acc2 ++ stepTrace pfx t) := by
  by_cases h : (!t.require.isEmpty || !t.recommend.isEmpty) = true <;>
    simp [finalizeStep, finalTest, stepTrace, h]

theorem finalize_foldl (env : Env) (pfx : String) (ts : List Test) :
    ∀ acc1 acc2, ts.foldl (finalizeStep env pfx) (acc1, acc2) =
      (acc1 ++ ts.map (finalTest env pfx), acc2 ++ traceOf pfx ts) := by
  induction ts with
  | nil =>
    intro acc1 acc2
    simp [traceOf]
  | cons t ts ih =>
    intro acc1 acc2
    rw [List.foldl_cons, finalizeStep_eq, ih]
    simp [traceOf, List.append_assoc]

theorem finalize_spec (env : Env) (pfx : String) (ts : List Test) :
    finalize env pfx ts = (ts.map (finalTest env pfx), traceOf pfx ts) := by
  have h := finalize_foldl env pfx ts [] []
  simpa [finalize] using h

theorem mem_select (allTests : List Test) (mn mf : String → Test → Bool)
    (filters names : List String) (t : Test) (ht : t ∈ allTests)
    (hn : ∃ n, n ∈ names ∧ mn n t = true)
    (hf : filters.all (fun f => mf f t) = true) :
    t ∈ select allTests mn mf filters names := by
  unfold select
  rw [List.mem_filter]
  refine ⟨ht, ?_⟩
  obtain ⟨n, hmem, hmatch⟩ := hn
  have hany : names.any (fun n => mn n t) = true := List.any_eq_true.mpr ⟨n, hmem, hmatch⟩
  simp [hany, hf]

/-- C2 (amended): when `url` is not set and `path` is set to a location that
is not a directory, discovery fails with the `pathNotDirectory` discovery
error before any mutation (the trace is empty). When `url` is set the check
is skipped: the clone proceeds and a missing path surfaces only later as a
metadata-tree error (see the counterexample). -/
theorem c2_no_url_path_check (env : Env) (cfg : Config)
    (hu : truthy cfg.url = false) (hp : truthy cfg.path = true)
    (hd : env.isDir (cfg.path.getD "") = false) :
    (go env cfg).result = .error (.pathNotDirectory (cfg.path.getD "")) ∧
    (go env cfg).trace = [] := by
  have hacq : acquire env cfg = .error (.pathNotDirectory (cfg.path.getD "")) := by
    simp [acquire, hu, hp, hd]
  unfold go
  rw [hacq]
  exact ⟨rfl, rfl⟩

theorem c2_witness :
    (go envBase cfgBadPath).result = .error (.pathNotDirectory "/bad") ∧
    (go envBase cfgBadPath).trace = [] :=
  c2_no_url_path_check envBase cfgBadPath rfl rfl rfl

theorem c2_counterexample :
    Effect.gitClone "http://u" "/w/tests" ∈ (go envBase cfgUrlBadPath).trace ∧
    isMutation (Effect.gitClone "http://u" "/w/tests") = true ∧
    (go envBase cfgUrlBadPath).result = .error (.metadataTreeNotFound "/bad") := by
  refine ⟨?_, rfl, rfl⟩
  decide

theorem go_paths (env : Env) (cfg : Config) (path0 : Option String) (tr0 : List Effect)
    (hacq : acquire env cfg = .ok (path0, tr0))
    (ht : env.isDir (pjoin (testdirOf env) (lstripSlash (adjustPath path0))) = true) :
    (go env cfg).adjustedPath = some (adjustPath path0) ∧
    (go env cfg).prefixPath = some (pjoin "/tests" (lstripSlash (adjustPath path0))) := by
  unfold go
  rw [hacq]
  by_cases hd : env.dry <;> simp [ht, hd]

theorem go_nodry_fields (env : Env) (cfg : Config) (path0 : Option String) (tr0 : List Effect)
    (hacq : acquire env cfg = .ok (path0, tr0))
    (hdry : env.dry = false)
    (ht : env.isDir (pjoin (testdirOf env) (lstripSlash (adjustPath path0))) = true) :
    (go env cfg).queryNames =
      some (if cfg.only_modified then cfg.test ++ modifiedList env.gitLogOutput else cfg.test) ∧
    (go env cfg).selected =
      some (select env.allTests env.matchesName env.matchesFilter cfg.filter
        (if cfg.only_modified then cfg.test ++ modifiedList env.gitLogOutput else cfg.test)) ∧
    (go env cfg).trace = tr0 ++ checkoutTrace env cfg ++ refUrlTrace env cfg ++
      (if cfg.only_modified then [Effect.gitLog (getReferenceRef cfg ++ "..HEAD") (testdirOf env)]
       else []) ++
      Effect.treeQuery (pjoin (testdirOf env) (lstripSlash (adjustPath path0))) cfg.filter
        (if cfg.only_modified then cfg.test ++ modifiedList env.gitLogOutput else cfg.test) ::
      traceOf (pjoin "/tests" (lstripSlash (adjustPath path0)))
        (select env.allTests env.matchesName env.matchesFilter cfg.filter
          (if cfg.only_modified then cfg.test ++ modifiedList env.gitLogOutput else cfg.test)) ∧
    (go env cfg).result = .ok
      ((select env.allTests env.matchesName env.matchesFilter cfg.filter
          (if cfg.only_modified then cfg.test ++ modifiedList env.gitLogOutput else cfg.test)).map
        (finalTest env (pjoin "/tests" (lstripSlash (adjustPath path0))))) := by
  unfold go
  rw [hacq]
  simp [ht, hdry, finalize_spec, List.append_assoc]

/-- C1 (counterexample): on the changed-file list `["a/b/x", "a/b/y", "c/z"]`
the claimed pattern `^/a$` (one pattern per top-level directory) is not in the
computed modified set; the set instead holds `^/a/b$`, the pattern of the full
directory component of the changed files. -/
theorem c1_counterexample :
    "^/a$" ∉ modifiedOfFilesS ["a/b/x", "a/b/y", "c/z"] ∧
    "^/a/b$" ∈ modifiedOfFilesS ["a/b/x", "a/b/y", "c/z"] := by
  decide

/-- C1 (amended): for a diff whose list of changed file paths is
`["a/b/x", "a/b/y", "c/z"]`, the modified-set computation produces exactly the
pattern set containing `^/a/b$` and `^/c$`: one anchored pattern per distinct
directory component (the full `dirname` of each changed file, not only its
top-level directory), with duplicates collapsed. -/
theorem c1_modified_dirs :
    modifiedOfFilesS ["a/b/x", "a/b/y", "c/z"] = ["^/a/b$", "^/c$"] := by
  decide

/-- C4 (counterexample): the rewrite of `DiscoverFmf.go` line 215 is a plain
posix join without normalization, so it differs from the spec's
`normalize(pathPrefix + "/" + stripLeadingSlash(path))`: with prefix `/tests`
and test path `/x/../y` the code yields `/tests/x/../y` while the claimed
formula yields `/tests/y`; and with the empty prefix the code yields the
stripped path `foo`, not the original path `/foo`. -/
theorem c4_counterexample :
    rewritePath "/tests" "/x/../y" = "/tests/x/../y" ∧
    rewritePathSpec "/tests" "/x/../y" = "/tests/y" ∧
    rewritePath "/tests" "/x/../y" ≠ rewritePathSpec "/tests" "/x/../y" ∧
    rewritePath "" "/foo" = "foo" ∧
    normpath "/foo" = "/foo" := by
  refine ⟨rfl, rfl, ?_, rfl, rfl⟩
  decide

/-- C4 (amended): for every selected test the final loop computes
`path' = join(pathPrefix, stripLeadingSlash(path))` (a posix join with no
normalization), applies it exactly once per test — the loop is exactly a map
of `finalTest` over the selected tests — and applies it before the dependency
expansion: each test's trace contribution is its path rewrite followed by its
(possible) dependency expansion; when `pathPrefix` is empty the rewrite
yields `stripLeadingSlash(path)`. -/
theorem c4_rewrite_once (env : Env) (pfx : String) (ts : List Test) :
    (finalize env pfx ts).1 = ts.map (finalTest env pfx) ∧
    (finalize env pfx ts).2 = traceOf pfx ts ∧
    (∀ t : Test, (finalTest env pfx t).path = rewritePath pfx t.path) ∧
    (∀ t : Test, stepTrace pfx t =
      Effect.pathRewrite t.name t.path (rewritePath pfx t.path) ::
        (if !t.require.isEmpty || !t.recommend.isEmpty then
          [Effect.depExpand t.name t.require t.recommend] else [])) ∧
    (∀ p : String, rewritePath "" p = lstripSlash p) := by
  refine ⟨by rw [finalize_spec], by rw [finalize_spec], ?_, ?_, ?_⟩
  · intro t
    unfold finalTest
    split <;> rfl
  · intro t
    rfl
  · exact rewritePath_empty

/-- C5 (counterexample): the pattern generated for the changed file `a/x` is
`^/a$`, which is not the regex-escaped directory name enclosed in anchors
(`^a$`), and under the modelled search semantics it does not match the
directory name `a` itself — it matches exactly `/a`. -/
theorem c5_counterexample :
    modifiedOfFilesS ["a/x"] = ["^/a$"] ∧
    ("^/a$" : String) ≠ "^" ++ reEscape "a" ++ "$" ∧
    ¬ litSearch true ['/', 'a'] true ['a'] := by
  refine ⟨by decide, by decide, ?_⟩
  intro h
  have := (litSearch_anchored ['/', 'a'] ['a']).mp h
  simp at this

/-- C5 (amended): every pattern of the modified set is `^/` followed by the
regex-escaped directory component of some changed file and a closing `$`
anchor; conversely exactly the nonempty directory components contribute, so
changed files at the tree root (empty directory component) contribute no
pattern; the result has no duplicates; each such pattern parses as a fully
anchored literal and, under the modelled search semantics, matches exactly
the slash-prefixed directory name — never a superstring of it. -/
theorem c5_anchored_patterns (output : String) :
    (∀ p, p ∈ modifiedList output ↔
      ∃ f, f ∈ splitSep '\n' output.data ∧ dirnameL f ≠ [] ∧ p = patOf (dirnameL f)) ∧
    (modifiedList output).Nodup ∧
    (∀ d : List Char, patOf d = "^/" ++ reEscape ⟨d⟩ ++ "$") ∧
    (∀ d : List Char, parseRegex (patOf d) = some (true, '/' :: d, true)) ∧
    (∀ d s : List Char, litSearch true ('/' :: d) true s ↔ s = '/' :: d) := by
  refine ⟨mem_modifiedList output, nodup_dedupFirst _, ?_, parseRegex_patOf, ?_⟩
  · intro d
    show patOf d = ⟨"^/".data ++ reEscapeL d ++ "$".data⟩
    rfl
  · intro d s
    exact litSearch_anchored _ _

/-- C3 (counterexample): in the exact scenario of the claim — no `url`, no
`path`, the plan's tree root equal to the git toplevel — the adjusted path is
indeed empty, but the computed test-path prefix is `/tests/` (posix join of
`/tests` with the empty path appends a trailing separator), not exactly
`/tests`. -/
theorem c3_counterexample :
    (go envGitRoot cfgEmpty).adjustedPath = some "" ∧
    (go envGitRoot cfgEmpty).prefixPath = some "/tests/" ∧
    some "/tests/" ≠ (some "/tests" : Option String) := by
  refine ⟨rfl, rfl, by decide⟩

/-- C3 (amended): for every configuration with no `url` and no `path` where
the plan's tree root is its own version-control root (the toplevel lookup
prints it back), the computed relative path adjusts to the empty string and
the resulting test-path prefix is `/tests/` — the posix join of `/tests` with
the empty relative path, which carries a trailing separator and prefixes test
paths exactly like `/tests`. -/
theorem c3_empty_path_prefix (env : Env) (cfg : Config)
    (hu : cfg.url = none) (hp : cfg.path = none)
    (hout : ∃ out, env.revParse env.planTreeRoot = some out ∧ stripNL out = env.planTreeRoot)
    (ht : env.isDir (pjoin (pjoin env.workdir "tests") "") = true) :
    (go env cfg).adjustedPath = some "" ∧
    (go env cfg).prefixPath = some "/tests/" ∧
    (go env cfg).prefixPath = some (pjoin "/tests" "") := by
  obtain ⟨out, hrev, hstrip⟩ := hout
  have hut : truthy cfg.url = false := by rw [hu]; rfl
  have hpt : truthy cfg.path = false := by rw [hp]; rfl
  have hacq : acquire env cfg = .ok (some ".", .gitRevParse env.planTreeRoot ::
      (if env.dry then [] else [.copyTree env.planTreeRoot (testdirOf env)])) := by
    simp [acquire, hut, hpt, hrev, hstrip, relpath_self]
  have hadj : adjustPath (some ".") = "" := rfl
  have hts : pjoin (testdirOf env) (lstripSlash (adjustPath (some "."))) =
      pjoin (pjoin env.workdir "tests") "" := rfl
  have hpaths := go_paths env cfg (some ".") _ hacq (by rw [hts]; exact ht)
  rw [hadj] at hpaths
  refine ⟨hpaths.1, ?_, ?_⟩
  · rw [hpaths.2]
    rfl
  · rw [hpaths.2]
    rfl

/-- C6: when the version-control-root lookup fails on the metadata root,
acquisition does not fail — the `RunError` is caught, the metadata root
itself becomes the copy source (the copy effect's source is the fmf root),
the computed relative path (the metadata root relative to itself) adjusts to
the empty string, and the run goes on to return tests. -/
theorem c6_fallback (env : Env) (cfg : Config)
    (hu : truthy cfg.url = false)
    (hpd : truthy cfg.path = true → env.isDir (cfg.path.getD "") = true)
    (hrev : env.revParse (if truthy cfg.path then cfg.path.getD "" else env.planTreeRoot) = none)
    (hdry : env.dry = false)
    (ht : env.isDir (pjoin (pjoin env.workdir "tests") "") = true) :
    (go env cfg).trace.take 2 =
      [Effect.gitRevParse (if truthy cfg.path then cfg.path.getD "" else env.planTreeRoot),
       Effect.copyTree (if truthy cfg.path then cfg.path.getD "" else env.planTreeRoot)
         (pjoin env.workdir "tests")] ∧
    (go env cfg).adjustedPath = some "" ∧
    (∃ ts, (go env cfg).result = .ok ts) := by
  have hacq : acquire env cfg = .ok (some ".",
      [Effect.gitRevParse (if truthy cfg.path then cfg.path.getD "" else env.planTreeRoot),
       Effect.copyTree (if truthy cfg.path then cfg.path.getD "" else env.planTreeRoot)
         (testdirOf env)]) := by
    by_cases hpt : truthy cfg.path = true
    · rw [if_pos hpt] at hrev
      simp [acquire, hu, hpt, hpd hpt, hrev, relpath_self, hdry]
    · have hpt' : truthy cfg.path = false := by
        cases h : truthy cfg.path
        · rfl
        · exact absurd h hpt
      rw [if_neg hpt] at hrev
      simp [acquire, hu, hpt', hrev, relpath_self, hdry]
  have hadj : adjustPath (some ".") = "" := rfl
  have hts : pjoin (testdirOf env) (lstripSlash (adjustPath (some "."))) =
      pjoin (pjoin env.workdir "tests") "" := rfl
  have hpaths := go_paths env cfg (some ".") _ hacq (by rw [hts]; exact ht)
  have hfields := go_nodry_fields env cfg (some ".") _ hacq hdry (by rw [hts]; exact ht)
  rw [hadj] at hpaths
  refine ⟨?_, hpaths.1, ?_⟩
  · rw [hfields.2.2.1]
    simp [testdirOf, List.append_assoc]
  · exact ⟨_, hfields.2.2.2⟩

theorem wrapValue_is_list (o : Option Value) (v : Value) (h : wrapValue o = some v) :
    ∃ l, v = Value.vlist l := by
  cases o with
  | none => simp [wrapValue] at h
  | some w =>
    cases w with
    | str s =>
      simp [wrapValue] at h
      exact ⟨[s], h.symm⟩
    | vlist l =>
      simp [wrapValue] at h
      exact ⟨l, h.symm⟩

theorem wake_test_filter_eq (d : RawData) (cl : CmdLine) :
    (wake d cl).test = (if cl.test = [] then wrapValue d.test else some (Value.vlist cl.test)) ∧
    (wake d cl).filter =
      (if cl.filter = [] then wrapValue d.filter else some (Value.vlist cl.filter)) := by
  cases hr : d.repository <;> cases hv : d.revision <;> simp [wake, hr, hv]

/-- C7: when `only_modified` is enabled, the name list passed to the tree
query is the explicit `test` patterns extended with the computed modified-set
patterns — membership in it is exactly the union of the two — so a test that
matches a modified-set pattern is selected even when it matches no explicit
name, and a test that matches an explicit name is selected even when it
matches no modified-set pattern (both subject to the filters). -/
theorem c7_union_selection (env : Env) (cfg : Config)
    (hm : cfg.only_modified = true)
    (hu : truthy cfg.url = true)
    (hp : cfg.path = none)
    (hdry : env.dry = false)
    (ht : env.isDir (pjoin (pjoin env.workdir "tests") "") = true) :
    (go env cfg).queryNames = some (cfg.test ++ modifiedList env.gitLogOutput) ∧
    (∀ s, s ∈ cfg.test ++ modifiedList env.gitLogOutput ↔
      s ∈ cfg.test ∨ s ∈ modifiedList env.gitLogOutput) ∧
    (go env cfg).selected = some (select env.allTests env.matchesName env.matchesFilter
      cfg.filter (cfg.test ++ modifiedList env.gitLogOutput)) ∧
    (∀ t, t ∈ env.allTests →
      (∃ m, m ∈ modifiedList env.gitLogOutput ∧ env.matchesName m t = true) →
      cfg.filter.all (fun f => env.matchesFilter f t) = true →
      t ∈ select env.allTests env.matchesName env.matchesFilter cfg.filter
        (cfg.test ++ modifiedList env.gitLogOutput)) ∧
    (∀ t, t ∈ env.allTests →
      (∃ n, n ∈ cfg.test ∧ env.matchesName n t = true) →
      cfg.filter.all (fun f => env.matchesFilter f t) = true →
      t ∈ select env.allTests env.matchesName env.matchesFilter cfg.filter
        (cfg.test ++ modifiedList env.gitLogOutput)) := by
  have hacq : acquire env cfg =
      .ok (cfg.path, [.gitClone (cfg.url.getD "") (testdirOf env)]) := by
    simp [acquire, hu, hdry]
  have hts : pjoin (testdirOf env) (lstripSlash (adjustPath cfg.path)) =
      pjoin (pjoin env.workdir "tests") "" := by
    rw [hp]
    rfl
  have hfields := go_nodry_fields env cfg cfg.path _ hacq hdry (by rw [hts]; exact ht)
  rw [hm] at hfields
  simp only [if_true] at hfields
  refine ⟨hfields.1, ?_, hfields.2.1, ?_, ?_⟩
  · intro s
    exact List.mem_append
  · rintro t ht' ⟨m, hmm, hmatch⟩ hf
    exact mem_select _ _ _ _ _ _ ht' ⟨m, List.mem_append.mpr (Or.inr hmm), hmatch⟩ hf
  · rintro t ht' ⟨n, hn, hmatch⟩ hf
    exact mem_select _ _ _ _ _ _ ht' ⟨n, List.mem_append.mpr (Or.inl hn), hmatch⟩ hf

/-- C8 (amended): in dry-run mode, every configuration that passes the path
validation (a truthy `path` with no `url` must be a directory) yields the
empty test sequence, and the trace holds no metadata-tree query and no
recursive copy. (The path validation itself still runs in dry-run mode and
can raise — see the counterexample.) -/
theorem c8_dry_run (env : Env) (cfg : Config) (hdry : env.dry = true)
    (hp : truthy cfg.url = false → truthy cfg.path = true →
      env.isDir (cfg.path.getD "") = true) :
    (go env cfg).result = .ok [] ∧
    (go env cfg).trace.all (fun e => !isTreeQueryE e && !isCopyE e) = true := by
  by_cases hu : truthy cfg.url = true
  · have hacq : acquire env cfg = .ok (cfg.path, []) := by
      simp [acquire, hu, hdry]
    unfold go
    rw [hacq]
    simp [hdry, checkoutTrace, refUrlTrace]
  · have hu' : truthy cfg.url = false := by
      cases h : truthy cfg.url
      · rfl
      · exact absurd h hu
    have hone : ∃ p0, acquire env cfg = .ok (p0,
        [Effect.gitRevParse (if truthy cfg.path then cfg.path.getD "" else env.planTreeRoot)]) := by
      by_cases hpt : truthy cfg.path = true
      · refine ⟨some (relpath (cfg.path.getD "")
            (match env.revParse (cfg.path.getD "") with
             | some out => stripNL out
             | none => cfg.path.getD "")), ?_⟩
        simp [acquire, hu', hpt, hp hu' hpt, hdry]
      · have hpt' : truthy cfg.path = false := by
          cases h : truthy cfg.path
          · rfl
          · exact absurd h hpt
        refine ⟨some (relpath env.planTreeRoot
            (match env.revParse env.planTreeRoot with
             | some out => stripNL out
             | none => env.planTreeRoot)), ?_⟩
        simp [acquire, hu', hpt', hdry]
    obtain ⟨p0, hacq⟩ := hone
    unfold go
    rw [hacq]
    simp [hdry, checkoutTrace, refUrlTrace, isTreeQueryE, isCopyE]

theorem checkoutTrace_shape (env : Env) (cfg : Config) (e : Effect)
    (he : e ∈ checkoutTrace env cfg) : ∃ r c, e = .gitCheckout r c := by
  rw [checkoutTrace] at he
  split at he
  · exact ⟨_, _, List.mem_singleton.mp he⟩
  · exact absurd he (List.not_mem_nil _)

theorem stepTrace_shape (pfx : String) (t : Test) (e : Effect) (he : e ∈ stepTrace pfx t) :
    (∃ n o p, e = .pathRewrite n o p) ∨ (∃ n r c, e = .depExpand n r c) := by
  rw [stepTrace] at he
  rcases List.mem_cons.mp he with h | h
  · exact Or.inl ⟨_, _, _, h⟩
  · right
    split at h
    · exact ⟨_, _, _, List.mem_singleton.mp h⟩
    · exact absurd h (List.not_mem_nil _)

theorem traceOf_shape (pfx : String) (ts : List Test) (e : Effect) (he : e ∈ traceOf pfx ts) :
    (∃ n o p, e = .pathRewrite n o p) ∨ (∃ n r c, e = .depExpand n r c) := by
  induction ts with
  | nil => exact absurd he (List.not_mem_nil _)
  | cons t ts ih =>
    rw [traceOf] at he
    rcases List.mem_append.mp he with h | h
    · exact stepTrace_shape pfx t e h
    · exact ih h

/-- C10: whenever `reference_url` is set, the remote named `reference` is
added and fetched in the working directory even when `only_modified` is
false: both effects are in the trace while no diff (`git log`) command runs
at all. -/
theorem c10_reference_fetched (env : Env) (cfg : Config)
    (hm : cfg.only_modified = false)
    (hru : truthy cfg.reference_url = true)
    (hu : truthy cfg.url = true)
    (hp : cfg.path = none)
    (hdry : env.dry = false)
    (ht : env.isDir (pjoin (pjoin env.workdir "tests") "") = true) :
    Effect.gitRemoteAdd "reference" (cfg.reference_url.getD "") (pjoin env.workdir "tests")
      ∈ (go env cfg).trace ∧
    Effect.gitFetch "reference" (pjoin env.workdir "tests") ∈ (go env cfg).trace ∧
    (∀ range cwd, Effect.gitLog range cwd ∉ (go env cfg).trace) := by
  have hacq : acquire env cfg =
      .ok (cfg.path, [.gitClone (cfg.url.getD "") (testdirOf env)]) := by
    simp [acquire, hu, hdry]
  have hts : pjoin (testdirOf env) (lstripSlash (adjustPath cfg.path)) =
      pjoin (pjoin env.workdir "tests") "" := by
    rw [hp]
    rfl
  have hfields := go_nodry_fields env cfg cfg.path _ hacq hdry (by rw [hts]; exact ht)
  have hre : refUrlTrace env cfg =
      [Effect.gitRemoteAdd "reference" (cfg.reference_url.getD "") (testdirOf env),
       Effect.gitFetch "reference" (testdirOf env)] := by
    simp [refUrlTrace, hru, hdry]
  refine ⟨?_, ?_, ?_⟩
  · rw [hfields.2.2.1, hre]
    simp [testdirOf]
  · rw [hfields.2.2.1, hre]
    simp [testdirOf]
  · intro range cwd h
    rw [hfields.2.2.1, hre, hm] at h
    simp only [Bool.false_eq_true, if_false, List.append_nil, List.mem_append,
      List.mem_cons, List.not_mem_nil, or_false, false_or, List.mem_singleton] at h
    rcases h with ((h | h) | (h | h)) | h | h
    · exact Effect.noConfusion h
    · obtain ⟨r, c, he⟩ := checkoutTrace_shape env cfg _ h
      exact Effect.noConfusion he
    · exact Effect.noConfusion h
    · exact Effect.noConfusion h
    · exact Effect.noConfusion h
    · rcases traceOf_shape _ _ _ h with ⟨_, _, _, he⟩ | ⟨_, _, _, he⟩ <;>
        exact Effect.noConfusion he

/-- C9: after `wake`, the `test` and `filter` keys hold only sequences: any
present value is a list, a scalar supplied in the step data is wrapped into a
one-element list (when no command-line override replaces it), and a list
supplied in the step data is left unchanged (when no command-line override
replaces it). -/
theorem c9_wake_sequences (d : RawData) (cl : CmdLine) :
    (∀ v, (wake d cl).test = some v → ∃ l, v = Value.vlist l) ∧
    (∀ v, (wake d cl).filter = some v → ∃ l, v = Value.vlist l) ∧
    (∀ s, cl.test = [] → d.test = some (Value.str s) →
      (wake d cl).test = some (Value.vlist [s])) ∧
    (∀ l, cl.test = [] → d.test = some (Value.vlist l) →
      (wake d cl).test = some (Value.vlist l)) ∧
    (∀ s, cl.filter = [] → d.filter = some (Value.str s) →
      (wake d cl).filter = some (Value.vlist [s])) ∧
    (∀ l, cl.filter = [] → d.filter = some (Value.vlist l) →
      (wake d cl).filter = some (Value.vlist l)) := by
  obtain ⟨htq, hfq⟩ := wake_test_filter_eq d cl
  refine ⟨?_, ?_, ?_, ?_, ?_, ?_⟩
  · intro v hv
    rw [htq] at hv
    split at hv
    · exact wrapValue_is_list _ _ hv
    · exact ⟨cl.test, (Option.some.inj hv).symm⟩
  · intro v hv
    rw [hfq] at hv
    split at hv
    · exact wrapValue_is_list _ _ hv
    · exact ⟨cl.filter, (Option.some.inj hv).symm⟩
  · intro s hc hd
    rw [htq, if_pos hc, hd]
    rfl
  · intro l hc hd
    rw [htq, if_pos hc, hd]
    rfl
  · intro s hc hd
    rw [hfq, if_pos hc, hd]
    rfl
  · intro l hc hd
    rw [hfq, if_pos hc, hd]
    rfl

theorem c3_witness :
    (go envGitRoot cfgEmpty).adjustedPath = some "" ∧
    (go envGitRoot cfgEmpty).prefixPath = some "/tests/" ∧
    (go envGitRoot cfgEmpty).prefixPath = some (pjoin "/tests" "") :=
  c3_empty_path_prefix envGitRoot cfgEmpty rfl rfl ⟨"/r\n", rfl, rfl⟩ rfl

theorem c6_witness :
    (go envNoVcs cfgEmpty).trace.take 2 =
      [Effect.gitRevParse "/r", Effect.copyTree "/r" (pjoin "/w" "tests")] ∧
    (go envNoVcs cfgEmpty).adjustedPath = some "" ∧
    (∃ ts, (go envNoVcs cfgEmpty).result = .ok ts) :=
  c6_fallback envNoVcs cfgEmpty rfl (fun _ => rfl) rfl rfl rfl

theorem c7_witness :
    (go envSelect cfgOnlyModified).queryNames =
      some (cfgOnlyModified.test ++ modifiedList envSelect.gitLogOutput) ∧
    (∀ s, s ∈ cfgOnlyModified.test ++ modifiedList envSelect.gitLogOutput ↔
      s ∈ cfgOnlyModified.test ∨ s ∈ modifiedList envSelect.gitLogOutput) ∧
    (go envSelect cfgOnlyModified).selected =
      some (select envSelect.allTests envSelect.matchesName envSelect.matchesFilter
        cfgOnlyModified.filter
        (cfgOnlyModified.test ++ modifiedList envSelect.gitLogOutput)) ∧
    (∀ t, t ∈ envSelect.allTests →
      (∃ m, m ∈ modifiedList envSelect.gitLogOutput ∧ envSelect.matchesName m t = true) →
      cfgOnlyModified.filter.all (fun f => envSelect.matchesFilter f t) = true →
      t ∈ select envSelect.allTests envSelect.matchesName envSelect.matchesFilter
        cfgOnlyModified.filter
        (cfgOnlyModified.test ++ modifiedList envSelect.gitLogOutput)) ∧
    (∀ t, t ∈ envSelect.allTests →
      (∃ n, n ∈ cfgOnlyModified.test ∧ envSelect.matchesName n t = true) →
      cfgOnlyModified.filter.all (fun f => envSelect.matchesFilter f t) = true →
      t ∈ select envSelect.allTests envSelect.matchesName envSelect.matchesFilter
        cfgOnlyModified.filter
        (cfgOnlyModified.test ++ modifiedList envSelect.gitLogOutput)) :=
  c7_union_selection envSelect cfgOnlyModified rfl rfl rfl rfl rfl

theorem c8_witness :
    (go envDryGood cfgEmpty).result = .ok [] ∧
    (go envDryGood cfgEmpty).trace.all (fun e => !isTreeQueryE e && !isCopyE e) = true :=
  c8_dry_run envDryGood cfgEmpty rfl (fun _ _ => rfl)

theorem c8_counterexample :
    (go envDryBad cfgBadPath).result = .error (.pathNotDirectory "/bad") ∧
    (go envDryBad cfgBadPath).result ≠ .ok [] := by
  refine ⟨rfl, ?_⟩
  intro h
  rw [show (go envDryBad cfgBadPath).result = .error (.pathNotDirectory "/bad") from rfl] at h
  exact Except.noConfusion h

theorem c10_witness :
    Effect.gitRemoteAdd "reference" (cfgRefUrl.reference_url.getD "")
      (pjoin envGitRoot.workdir "tests") ∈ (go envGitRoot cfgRefUrl).trace ∧
    Effect.gitFetch "reference" (pjoin envGitRoot.workdir "tests")
      ∈ (go envGitRoot cfgRefUrl).trace ∧
    (∀ range cwd, Effect.gitLog range cwd ∉ (go envGitRoot cfgRefUrl).trace) :=
  c10_reference_fetched envGitRoot cfgRefUrl rfl rfl rfl rfl rfl rfl

end TmtFmf
